import Mathlib

/-
Verification of the adjacency-list graph store in src/graph/adjacency_list.h
(namespace sal).

The store is `std::map<V, std::map<V, int>> adj`.  A `std::map` keyed by a
totally ordered type is embedded as an association list sorted strictly by
key; `map_find` models `map::find`, `map_insert` models `m[k] = a`
(insert-or-overwrite), and `map_touch` models the bare `m[k]` subscript that
default-constructs a missing entry and leaves a present one alone.  Every
graph operation below is a direct translation of the corresponding member
function of `Adjacency_list` / `Adjacency_list_directed`.
-/

namespace sal

variable {V : Type} [LinearOrder V]

/-- Model of `std::map::find` on an association list: the value stored under
key `k`, or `none` when `k` is absent. -/
def map_find {α : Type} (k : V) : List (V × α) → Option α
  | [] => none
  | p :: t => if k = p.1 then some p.2 else map_find k t

/-- Model of `m[k] = a` on a `std::map`: insert `(k, a)` at its sorted
position, overwriting in place when `k` is already present. -/
def map_insert {α : Type} (k : V) (a : α) : List (V × α) → List (V × α)
  | [] => [(k, a)]
  | p :: t =>
    if k < p.1 then (k, a) :: p :: t
    else if k = p.1 then (k, a) :: t
    else p :: map_insert k a t

/-- Model of the bare `m[k]` subscript on a `std::map`: default-construct the
entry `(k, d)` when `k` is absent, leave the map unchanged when present. -/
def map_touch {α : Type} (k : V) (d : α) : List (V × α) → List (V × α)
  | [] => [(k, d)]
  | p :: t =>
    if k < p.1 then (k, d) :: p :: t
    else if k = p.1 then p :: t
    else p :: map_touch k d t

/-- The storage of `sal::Adjacency_list<V>`: the outer map from vertex to its
neighbour map (neighbour identifier to `int` weight). -/
abbrev Adjacency_list (V : Type) : Type := List (V × List (V × Int))

/-- `sal::WEdge<V>`: a weighted edge record (source, dest, weight). -/
structure WEdge (V : Type) where
  source : V
  dest : V
  weight : Int

/-- `sal::UEdge<V>`: an unweighted edge record (source, dest). -/
structure UEdge (V : Type) where
  source : V
  dest : V

namespace Adjacency_list

/-- `Adjacency_list::num_vertex`: `adj.size()`. -/
def num_vertex (g : Adjacency_list V) : Nat := g.length

/-- `Adjacency_list::num_edge`: accumulate every neighbour-set size over the
vertices, then `edges >> 1`. -/
def num_edge (g : Adjacency_list V) : Nat :=
  (g.foldl (fun edges p => edges + p.2.length) 0) / 2

/-- `Adjacency_list::is_vertex`: `adj.find(v) != adj.end()`. -/
def is_vertex (g : Adjacency_list V) (v : V) : Bool := (map_find v g).isSome

/-- `Adjacency_list::is_edge`: false when `u` is absent, else membership of
`v` in `u`'s neighbour map. -/
def is_edge (g : Adjacency_list V) (u v : V) : Bool :=
  match map_find u g with
  | none => false
  | some es => (map_find v es).isSome

/-- `Adjacency_list::weight`: 0 when `u` is absent or `v` is not a neighbour
of `u`, else the stored weight. -/
def weight (g : Adjacency_list V) (u v : V) : Int :=
  match map_find u g with
  | none => 0
  | some es =>
    match map_find v es with
    | none => 0
    | some w => w

/-- `Adjacency_list::degree`: 0 when `v` is absent, else the size of `v`'s
neighbour map. -/
def degree (g : Adjacency_list V) (v : V) : Nat :=
  match map_find v g with
  | none => 0
  | some es => es.length

/-- The vertex identifiers in the order forward iteration (`begin`..`end`)
visits them: the key sequence of the outer map. -/
def vertices (g : Adjacency_list V) : List V := g.map Prod.fst

/-- `Adjacency_list::min_vertex`: the default value `V{}` on an empty graph,
else the key of `adj.begin()`. -/
def min_vertex [Inhabited V] (g : Adjacency_list V) : V :=
  match g with
  | [] => default
  | p :: _ => p.1

/-- `Adjacency_list::add_vertex`: the bare subscript `adj[v]`. -/
def add_vertex (g : Adjacency_list V) (v : V) : Adjacency_list V :=
  map_touch v [] g

/-- The assignment `adj[u][v] = w`: fetch or default-construct `u`'s
neighbour map, store `w` under `v` in it, and write it back under `u`. -/
def assign_edge (g : Adjacency_list V) (u v : V) (w : Int) : Adjacency_list V :=
  map_insert u (map_insert v w ((map_find u g).getD [])) g

/-- `Adjacency_list::add_edge` (undirected): `adj[u][v] = weight;
adj[v][u] = weight;`.  The C++ parameter defaults to `weight = 1`. -/
def add_edge (g : Adjacency_list V) (u v : V) (w : Int) : Adjacency_list V :=
  assign_edge (assign_edge g u v w) v u w

/-- The `Adjacency_list(initializer_list<UEdge<V>>)` constructor: for each
record, `adj[source][dest] = 1; adj[dest][source] = 1;`. -/
def ofUEdges (l : List (UEdge V)) : Adjacency_list V :=
  l.foldl (fun g e => assign_edge (assign_edge g e.source e.dest 1) e.dest e.source 1) []

/-- The `Adjacency_list(initializer_list<WEdge<V>>)` constructor: for each
record, `adj[source][dest] = weight; adj[dest][source] = weight;`. -/
def ofWEdges (l : List (WEdge V)) : Adjacency_list V :=
  l.foldl
    (fun g e => assign_edge (assign_edge g e.source e.dest e.weight) e.dest e.source e.weight) []

/-- The iterator-range constructor `Adjacency_list(begin, end)`: drain the
range of edge records, reading `source`, `dest` and `get_weight()` through
the supplied accessors. -/
def ofRange {E : Type} (src dst : E → V) (get_weight : E → Int) (l : List E) :
    Adjacency_list V :=
  l.foldl
    (fun g e =>
      assign_edge (assign_edge g (src e) (dst e) (get_weight e)) (dst e) (src e) (get_weight e))
    []

end Adjacency_list

namespace Adjacency_list_directed

/-- `Adjacency_list_directed::num_edge`: the same accumulation of
neighbour-set sizes, without the halving. -/
def num_edge (g : Adjacency_list V) : Nat :=
  g.foldl (fun edges p => edges + p.2.length) 0

/-- `Adjacency_list_directed::add_edge`: `adj[u][v] = weight; adj[v];`.
The C++ parameter defaults to `weight = 1`. -/
def add_edge (g : Adjacency_list V) (u v : V) (w : Int) : Adjacency_list V :=
  Adjacency_list.add_vertex (Adjacency_list.assign_edge g u v w) v

/-- The `Adjacency_list_directed(initializer_list<WEdge<V>>)` constructor:
for each record, `adj[source][dest] = weight; adj[dest];`. -/
def ofWEdges (l : List (WEdge V)) : Adjacency_list V :=
  l.foldl
    (fun g e =>
      Adjacency_list.add_vertex (Adjacency_list.assign_edge g e.source e.dest e.weight) e.dest)
    []

/-- The `Adjacency_list_directed(initializer_list<UEdge<V>>)` constructor:
for each record, `adj[source][dest] = 1; adj[dest];`. -/
def ofUEdges (l : List (UEdge V)) : Adjacency_list V :=
  l.foldl
    (fun g e =>
      Adjacency_list.add_vertex (Adjacency_list.assign_edge g e.source e.dest 1) e.dest)
    []

/-- The directed iterator-range constructor: drain the range, with
`adj[source][dest] = get_weight(); adj[dest];` per record. -/
def ofRange {E : Type} (src dst : E → V) (get_weight : E → Int) (l : List E) :
    Adjacency_list V :=
  l.foldl
    (fun g e =>
      Adjacency_list.add_vertex (Adjacency_list.assign_edge g (src e) (dst e) (get_weight e))
        (dst e))
    []

end Adjacency_list_directed

/-- The `std::map` representation invariant of the outer map: the vertex keys
appear in strictly increasing order. -/
abbrev SortedKeys (g : Adjacency_list V) : Prop :=
  (g.map Prod.fst).Pairwise (· < ·)

/-- Graphs reachable from the empty store purely through the undirected
mutators `add_vertex` and `add_edge`. -/
inductive Built : Adjacency_list V → Prop
  | empty : Built []
  | vertex (g : Adjacency_list V) (v : V) : Built g → Built (Adjacency_list.add_vertex g v)
  | edge (g : Adjacency_list V) (u v : V) (w : Int) :
      Built g → Built (Adjacency_list.add_edge g u v w)

/-- Graphs reachable from the empty store through any mutator of either
store (undirected or directed). -/
inductive Reachable : Adjacency_list V → Prop
  | empty : Reachable []
  | vertex (g : Adjacency_list V) (v : V) :
      Reachable g → Reachable (Adjacency_list.add_vertex g v)
  | edge (g : Adjacency_list V) (u v : V) (w : Int) :
      Reachable g → Reachable (Adjacency_list.add_edge g u v w)
  | edge_directed (g : Adjacency_list V) (u v : V) (w : Int) :
      Reachable g → Reachable (Adjacency_list_directed.add_edge g u v w)

/-- Spec-side reading of bulk construction (undirected, weighted records):
start empty and call `add_edge` once per record in order. -/
def fromWEdgesSpec (l : List (WEdge V)) : Adjacency_list V :=
  l.foldl (fun g e => Adjacency_list.add_edge g e.source e.dest e.weight) []

/-- Spec-side reading of bulk construction (undirected, unweighted records):
start empty and call `add_edge` with the default weight 1 per record. -/
def fromUEdgesSpec (l : List (UEdge V)) : Adjacency_list V :=
  l.foldl (fun g e => Adjacency_list.add_edge g e.source e.dest 1) []

/-- Spec-side reading of range construction (undirected): repeated
`add_edge` with the record's weight. -/
def fromRangeSpec {E : Type} (src dst : E → V) (get_weight : E → Int) (l : List E) :
    Adjacency_list V :=
  l.foldl (fun g e => Adjacency_list.add_edge g (src e) (dst e) (get_weight e)) []

/-- Spec-side reading of bulk construction (directed, weighted records):
repeated directed `add_edge`. -/
def fromWEdgesDirectedSpec (l : List (WEdge V)) : Adjacency_list V :=
  l.foldl (fun g e => Adjacency_list_directed.add_edge g e.source e.dest e.weight) []

/-- Spec-side reading of bulk construction (directed, unweighted records):
repeated directed `add_edge` with the default weight 1. -/
def fromUEdgesDirectedSpec (l : List (UEdge V)) : Adjacency_list V :=
  l.foldl (fun g e => Adjacency_list_directed.add_edge g e.source e.dest 1) []

/-- Spec-side reading of range construction (directed): repeated directed
`add_edge` with the record's weight. -/
def fromRangeDirectedSpec {E : Type} (src dst : E → V) (get_weight : E → Int) (l : List E) :
    Adjacency_list V :=
  l.foldl (fun g e => Adjacency_list_directed.add_edge g (src e) (dst e) (get_weight e)) []

/-- The vertex set {3, 1, 2} inserted in that order (spec example for
iteration order). -/
def example312 : Adjacency_list Nat :=
  Adjacency_list.add_vertex (Adjacency_list.add_vertex (Adjacency_list.add_vertex [] 3) 1) 2

/-! Helper lemmas about the `std::map` model. -/

theorem map_find_insert_self {α : Type} (k : V) (a : α) (l : List (V × α)) :
    map_find k (map_insert k a l) = some a := by
  induction l with
  | nil => simp [map_insert, map_find]
  | cons p t ih =>
    by_cases h1 : k < p.1
    · simp [map_insert, h1, map_find]
    · by_cases h2 : k = p.1
      · simp [map_insert, h1, h2, map_find]
      · simp [map_insert, h1, h2, map_find, ih]

theorem map_find_insert_ne {α : Type} {q k : V} (h : q ≠ k) (a : α) (l : List (V × α)) :
    map_find q (map_insert k a l) = map_find q l := by
  induction l with
  | nil => simp [map_insert, map_find, h]
  | cons p t ih =>
    by_cases h1 : k < p.1
    · simp [map_insert, h1, map_find, h]
    · by_cases h2 : k = p.1
      · have h3 : q ≠ p.1 := h2 ▸ h
        simp [map_insert, h1, h2, map_find, h, h3]
      · by_cases h3 : q = p.1
        · simp [map_insert, h1, h2, map_find, h3]
        · simp [map_insert, h1, h2, map_find, h3, ih]

theorem map_find_touch_isSome {α : Type} (k : V) (d : α) (l : List (V × α)) :
    (map_find k (map_touch k d l)).isSome = true := by
  induction l with
  | nil => simp [map_touch, map_find]
  | cons p t ih =>
    by_cases h1 : k < p.1
    · simp [map_touch, h1, map_find]
    · by_cases h2 : k = p.1
      · simp [map_touch, h1, h2, map_find]
      · simp [map_touch, h1, h2, map_find, ih]

theorem map_find_touch_ne {α : Type} {q k : V} (h : q ≠ k) (d : α) (l : List (V × α)) :
    map_find q (map_touch k d l) = map_find q l := by
  induction l with
  | nil => simp [map_touch, map_find, h]
  | cons p t ih =>
    by_cases h1 : k < p.1
    · simp [map_touch, h1, map_find, h]
    · by_cases h2 : k = p.1
      · simp [map_touch, h1, h2, map_find]
      · by_cases h3 : q = p.1
        · simp [map_touch, h1, h2, map_find, h3]
        · simp [map_touch, h1, h2, map_find, h3, ih]

theorem map_find_touch_of_none {α : Type} {k : V} {d : α} {l : List (V × α)}
    (h : map_find k l = none) : map_find k (map_touch k d l) = some d := by
  induction l with
  | nil => simp [map_touch, map_find]
  | cons p t ih =>
    by_cases h2 : k = p.1
    · simp [map_find, h2] at h
    · have ht : map_find k t = none := by simpa [map_find, h2] using h
      by_cases h1 : k < p.1
      · simp [map_touch, h1, map_find]
      · simp [map_touch, h1, h2, map_find, ih ht]

theorem mem_keys_of_find {α : Type} {k : V} {a : α} {l : List (V × α)}
    (h : map_find k l = some a) : k ∈ l.map Prod.fst := by
  induction l with
  | nil => simp [map_find] at h
  | cons p t ih =>
    by_cases h2 : k = p.1
    · simp [h2]
    · have ht : map_find k t = some a := by simpa [map_find, h2] using h
      simp [ih ht]

theorem map_touch_of_find_some {α : Type} {k : V} {a : α} (d : α) {l : List (V × α)}
    (hs : (l.map Prod.fst).Pairwise (· < ·)) (h : map_find k l = some a) :
    map_touch k d l = l := by
  induction l with
  | nil => simp [map_find] at h
  | cons p t ih =>
    rw [List.map_cons, List.pairwise_cons] at hs
    obtain ⟨hhead, htail⟩ := hs
    by_cases h2 : k = p.1
    · simp [map_touch, h2, lt_irrefl]
    · have ht : map_find k t = some a := by simpa [map_find, h2] using h
      have hk : k ∈ t.map Prod.fst := mem_keys_of_find ht
      have hlt : p.1 < k := hhead k hk
      have h1 : ¬ k < p.1 := not_lt_of_gt hlt
      simp [map_touch, h1, h2, ih htail ht]

theorem mem_keys_map_insert {α : Type} {x k : V} {a : α} {l : List (V × α)}
    (h : x ∈ (map_insert k a l).map Prod.fst) : x = k ∨ x ∈ l.map Prod.fst := by
  induction l with
  | nil =>
    simp [map_insert] at h
    exact Or.inl h
  | cons p t ih =>
    by_cases h1 : k < p.1
    · simp only [map_insert, if_pos h1, List.map_cons, List.mem_cons] at h ⊢
      tauto
    · by_cases h2 : k = p.1
      · simp only [map_insert, if_neg h1, if_pos h2, List.map_cons, List.mem_cons] at h ⊢
        tauto
      · simp only [map_insert, if_neg h1, if_neg h2, List.map_cons, List.mem_cons] at h ⊢
        rcases h with h | h
        · tauto
        · rcases ih h with h | h <;> tauto

theorem mem_keys_map_touch {α : Type} {x k : V} {d : α} {l : List (V × α)}
    (h : x ∈ (map_touch k d l).map Prod.fst) : x = k ∨ x ∈ l.map Prod.fst := by
  induction l with
  | nil =>
    simp [map_touch] at h
    exact Or.inl h
  | cons p t ih =>
    by_cases h1 : k < p.1
    · simp only [map_touch, if_pos h1, List.map_cons, List.mem_cons] at h ⊢
      tauto
    · by_cases h2 : k = p.1
      · simp only [map_touch, if_neg h1, if_pos h2, List.map_cons, List.mem_cons] at h ⊢
        tauto
      · simp only [map_touch, if_neg h1, if_neg h2, List.map_cons, List.mem_cons] at h ⊢
        rcases h with h | h
        · tauto
        · rcases ih h with h | h <;> tauto

theorem sorted_map_insert {α : Type} (k : V) (a : α) {l : List (V × α)}
    (hs : (l.map Prod.fst).Pairwise (· < ·)) :
    ((map_insert k a l).map Prod.fst).Pairwise (· < ·) := by
  induction l with
  | nil => simp [map_insert]
  | cons p t ih =>
    rw [List.map_cons, List.pairwise_cons] at hs
    obtain ⟨hhead, htail⟩ := hs
    by_cases h1 : k < p.1
    · simp only [map_insert, if_pos h1, List.map_cons, List.pairwise_cons]
      refine ⟨?_, hhead, htail⟩
      intro x hx
      rcases List.mem_cons.mp hx with h | h
      · exact h ▸ h1
      · exact h1.trans (hhead x h)
    · by_cases h2 : k = p.1
      · simp only [map_insert, if_neg h1, if_pos h2, List.map_cons, List.pairwise_cons]
        refine ⟨?_, htail⟩
        intro x hx
        rw [h2]
        exact hhead x hx
      · have hlt : p.1 < k := lt_of_le_of_ne (le_of_not_lt h1) (Ne.symm h2)
        simp only [map_insert, if_neg h1, if_neg h2, List.map_cons, List.pairwise_cons]
        refine ⟨?_, ih htail⟩
        intro x hx
        rcases mem_keys_map_insert hx with h | h
        · exact h ▸ hlt
        · exact hhead x h

theorem sorted_map_touch {α : Type} (k : V) (d : α) {l : List (V × α)}
    (hs : (l.map Prod.fst).Pairwise (· < ·)) :
    ((map_touch k d l).map Prod.fst).Pairwise (· < ·) := by
  induction l with
  | nil => simp [map_touch]
  | cons p t ih =>
    rw [List.map_cons, List.pairwise_cons] at hs
    obtain ⟨hhead, htail⟩ := hs
    by_cases h1 : k < p.1
    · simp only [map_touch, if_pos h1, List.map_cons, List.pairwise_cons]
      refine ⟨?_, hhead, htail⟩
      intro x hx
      rcases List.mem_cons.mp hx with h | h
      · exact h ▸ h1
      · exact h1.trans (hhead x h)
    · by_cases h2 : k = p.1
      · simp only [map_touch, if_neg h1, if_pos h2, List.map_cons, List.pairwise_cons]
        exact ⟨hhead, htail⟩
      · have hlt : p.1 < k := lt_of_le_of_ne (le_of_not_lt h1) (Ne.symm h2)
        simp only [map_touch, if_neg h1, if_neg h2, List.map_cons, List.pairwise_cons]
        refine ⟨?_, ih htail⟩
        intro x hx
        rcases mem_keys_map_touch hx with h | h
        · exact h ▸ hlt
        · exact hhead x h

theorem map_insert_map_insert {α : Type} (k : V) (a : α) (l : List (V × α)) :
    map_insert k a (map_insert k a l) = map_insert k a l := by
  induction l with
  | nil => simp [map_insert, lt_irrefl]
  | cons p t ih =>
    by_cases h1 : k < p.1
    · simp [map_insert, h1, lt_irrefl]
    · by_cases h2 : k = p.1
      · simp [map_insert, h1, h2, lt_irrefl]
      · simp [map_insert, h1, h2, ih]

theorem map_touch_map_touch {α : Type} (k : V) (d : α) (l : List (V × α)) :
    map_touch k d (map_touch k d l) = map_touch k d l := by
  induction l with
  | nil => simp [map_touch, lt_irrefl]
  | cons p t ih =>
    by_cases h1 : k < p.1
    · simp [map_touch, h1, lt_irrefl]
    · by_cases h2 : k = p.1
      · simp [map_touch, h1, h2]
      · simp [map_touch, h1, h2, ih]

theorem length_map_insert_le {α : Type} (k : V) (a : α) (l : List (V × α)) :
    (map_insert k a l).length ≤ l.length + 1 := by
  induction l with
  | nil => simp [map_insert]
  | cons p t ih =>
    by_cases h1 : k < p.1
    · simp [map_insert, h1]
    · by_cases h2 : k = p.1
      · simp only [map_insert, if_neg h1, if_pos h2, List.length_cons]
        omega
      · simp only [map_insert, if_neg h1, if_neg h2, List.length_cons]
        omega

omit [LinearOrder V] in
theorem foldl_length_eq_sum (l : Adjacency_list V) (n : Nat) :
    l.foldl (fun edges p => edges + p.2.length) n = n + (l.map (fun p => p.2.length)).sum := by
  induction l generalizing n with
  | nil => simp
  | cons p t ih =>
    simp only [List.foldl_cons, List.map_cons, List.sum_cons, ih]
    omega

theorem map_find_of_mem {α : Type} {l : List (V × α)} {p : V × α}
    (hs : (l.map Prod.fst).Pairwise (· < ·)) (hp : p ∈ l) :
    map_find p.1 l = some p.2 := by
  induction l with
  | nil => simp at hp
  | cons q t ih =>
    rw [List.map_cons, List.pairwise_cons] at hs
    obtain ⟨hhead, htail⟩ := hs
    rcases List.mem_cons.mp hp with h | h
    · subst h
      simp [map_find]
    · have hlt : q.1 < p.1 := hhead p.1 (List.mem_map.mpr ⟨p, h, rfl⟩)
      have hne : p.1 ≠ q.1 := ne_of_gt hlt
      simp [map_find, hne, ih htail h]

theorem sortedKeys_of_reachable {g : Adjacency_list V} (h : Reachable g) : SortedKeys g := by
  induction h with
  | empty => simp [SortedKeys]
  | vertex g v _ ih => exact sorted_map_touch _ _ ih
  | edge g u v w _ ih => exact sorted_map_insert _ _ (sorted_map_insert _ _ ih)
  | edge_directed g u v w _ ih => exact sorted_map_touch _ _ (sorted_map_insert _ _ ih)

theorem reachable_of_built {g : Adjacency_list V} (h : Built g) : Reachable g := by
  induction h with
  | empty => exact Reachable.empty
  | vertex g v _ ih => exact Reachable.vertex g v ih
  | edge g u v w _ ih => exact Reachable.edge g u v w ih

theorem degree_sum_eq_size_sum {g : Adjacency_list V} (hs : SortedKeys g) :
    ((Adjacency_list.vertices g).map (Adjacency_list.degree g)).sum =
      (g.map (fun p => p.2.length)).sum := by
  unfold Adjacency_list.vertices
  rw [List.map_map]
  congr 1
  apply List.map_congr_left
  intro p hp
  simp only [Function.comp_apply, Adjacency_list.degree, map_find_of_mem hs hp]

theorem degree_map_insert_self (k : V) (es : List (V × Int)) (l : Adjacency_list V) :
    Adjacency_list.degree (map_insert k es l) k = es.length := by
  simp [Adjacency_list.degree, map_find_insert_self]

/-! Claim theorems. -/

/-- C1: after any `add_edge(u, v, w)` call on the undirected store,
`is_edge(u,v)` and `is_edge(v,u)` are both true and
`weight(u,v) = weight(v,u) = w`; the symmetric entry is inserted by the same
call. -/
theorem undirected_add_edge_symmetric (g : Adjacency_list V) (u v : V) (w : Int) :
    Adjacency_list.is_edge (Adjacency_list.add_edge g u v w) u v = true ∧
    Adjacency_list.is_edge (Adjacency_list.add_edge g u v w) v u = true ∧
    Adjacency_list.weight (Adjacency_list.add_edge g u v w) u v = w ∧
    Adjacency_list.weight (Adjacency_list.add_edge g u v w) v u = w := by
  unfold Adjacency_list.add_edge Adjacency_list.assign_edge
  by_cases huv : u = v
  · subst huv
    simp [Adjacency_list.is_edge, Adjacency_list.weight, map_find_insert_self]
  · have hvu : v ≠ u := Ne.symm huv
    simp [Adjacency_list.is_edge, Adjacency_list.weight, map_find_insert_self,
      map_find_insert_ne huv, map_find_insert_ne hvu]

/-- C2 fails as literally stated when u = v: the directed call
`add_edge(v, v, w)` on the empty store flips `is_edge(v,u)` (= `is_edge(v,v)`)
from false to true, and the absent destination v is created with the
non-empty neighbour set {v ↦ w}, not an empty one. -/
theorem directed_add_edge_self_loop_cx :
    Adjacency_list.is_edge ([] : Adjacency_list Nat) 0 0 = false ∧
    Adjacency_list.is_edge
      (Adjacency_list_directed.add_edge ([] : Adjacency_list Nat) 0 0 1) 0 0 = true ∧
    map_find 0 (Adjacency_list_directed.add_edge ([] : Adjacency_list Nat) 0 0 1) ≠
      some [] := by
  decide

/-- C2 (amended: for u ≠ v): after a directed `add_edge(u, v, w)` call,
`is_edge(u,v)` is true with `weight(u,v) = w`, `is_vertex(v)` is true,
`is_edge(v,u)` is exactly what it was before the call (no reverse entry is
inserted), and an absent v is created with an empty neighbour set.  The
hypothesis `SortedKeys g` is the `std::map` representation invariant. -/
theorem directed_add_edge_single_direction (g : Adjacency_list V) (u v : V) (w : Int)
    (hs : SortedKeys g) (huv : u ≠ v) :
    Adjacency_list.is_edge (Adjacency_list_directed.add_edge g u v w) u v = true ∧
    Adjacency_list.weight (Adjacency_list_directed.add_edge g u v w) u v = w ∧
    Adjacency_list.is_vertex (Adjacency_list_directed.add_edge g u v w) v = true ∧
    Adjacency_list.is_edge (Adjacency_list_directed.add_edge g u v w) v u =
      Adjacency_list.is_edge g v u ∧
    (Adjacency_list.is_vertex g v = false →
      map_find v (Adjacency_list_directed.add_edge g u v w) = some []) := by
  have hvu : v ≠ u := Ne.symm huv
  have hfind_u : map_find u (Adjacency_list_directed.add_edge g u v w) =
      some (map_insert v w ((map_find u g).getD [])) := by
    unfold Adjacency_list_directed.add_edge Adjacency_list.assign_edge
      Adjacency_list.add_vertex
    rw [map_find_touch_ne huv, map_find_insert_self]
  have hfind_v1 : map_find v (Adjacency_list.assign_edge g u v w) = map_find v g := by
    unfold Adjacency_list.assign_edge
    exact map_find_insert_ne hvu _ _
  have hsorted1 : SortedKeys (Adjacency_list.assign_edge g u v w) :=
    sorted_map_insert _ _ hs
  refine ⟨?_, ?_, ?_, ?_, ?_⟩
  · simp [Adjacency_list.is_edge, hfind_u, map_find_insert_self]
  · simp [Adjacency_list.weight, hfind_u, map_find_insert_self]
  · unfold Adjacency_list_directed.add_edge Adjacency_list.add_vertex
      Adjacency_list.is_vertex
    exact map_find_touch_isSome _ _ _
  · unfold Adjacency_list_directed.add_edge Adjacency_list.add_vertex
    rcases hcase : map_find v (Adjacency_list.assign_edge g u v w) with _ | es
    · have h2 : map_find v (map_touch v ([] : List (V × Int))
          (Adjacency_list.assign_edge g u v w)) = some [] :=
        map_find_touch_of_none hcase
      have h3 : map_find v g = none := hfind_v1 ▸ hcase
      simp [Adjacency_list.is_edge, h2, h3, map_find]
    · have heq : map_touch v ([] : List (V × Int)) (Adjacency_list.assign_edge g u v w) =
          Adjacency_list.assign_edge g u v w :=
        map_touch_of_find_some _ hsorted1 hcase
      have h3 : map_find v g = some es := hfind_v1 ▸ hcase
      rw [heq]
      simp [Adjacency_list.is_edge, hcase, h3]
  · intro hv
    have h3 : map_find v g = none := by
      rcases hm : map_find v g with _ | es
      · rfl
      · simp [Adjacency_list.is_vertex, hm] at hv
    have h4 : map_find v (Adjacency_list.assign_edge g u v w) = none := by
      rw [hfind_v1]
      exact h3
    unfold Adjacency_list_directed.add_edge Adjacency_list.add_vertex
    exact map_find_touch_of_none h4

/-- C2 witness: the amended theorem applied to the empty graph over Nat with
u = 0, v = 1, w = 7. -/
theorem directed_add_edge_single_direction_witness :
    Adjacency_list.is_edge
      (Adjacency_list_directed.add_edge ([] : Adjacency_list Nat) 0 1 7) 0 1 = true ∧
    Adjacency_list.weight
      (Adjacency_list_directed.add_edge ([] : Adjacency_list Nat) 0 1 7) 0 1 = 7 ∧
    Adjacency_list.is_vertex
      (Adjacency_list_directed.add_edge ([] : Adjacency_list Nat) 0 1 7) 1 = true ∧
    Adjacency_list.is_edge
      (Adjacency_list_directed.add_edge ([] : Adjacency_list Nat) 0 1 7) 1 0 =
      Adjacency_list.is_edge ([] : Adjacency_list Nat) 1 0 ∧
    (Adjacency_list.is_vertex ([] : Adjacency_list Nat) 1 = false →
      map_find 1 (Adjacency_list_directed.add_edge ([] : Adjacency_list Nat) 0 1 7) =
        some []) :=
  directed_add_edge_single_direction [] 0 1 7 (by decide) (by decide)

/-- C3: on any undirected graph reachable from the empty store purely through
`add_vertex` and `add_edge` (self-loops permitted), `num_edge()` equals half
(integer division) the sum of `degree(v)` over all vertices v. -/
theorem undirected_num_edge_half_degree_sum (g : Adjacency_list V) (hb : Built g) :
    Adjacency_list.num_edge g =
      ((Adjacency_list.vertices g).map (Adjacency_list.degree g)).sum / 2 := by
  have hs : SortedKeys g := sortedKeys_of_reachable (reachable_of_built hb)
  rw [degree_sum_eq_size_sum hs]
  unfold Adjacency_list.num_edge
  rw [foldl_length_eq_sum, Nat.zero_add]

/-- C3 witness: the graph built by add_edge(1,2,5) then add_edge(2,3,1). -/
theorem undirected_num_edge_half_degree_sum_witness :
    Adjacency_list.num_edge
        (Adjacency_list.add_edge (Adjacency_list.add_edge ([] : Adjacency_list Nat) 1 2 5) 2 3 1) =
      ((Adjacency_list.vertices
            (Adjacency_list.add_edge (Adjacency_list.add_edge ([] : Adjacency_list Nat) 1 2 5) 2 3 1)).map
          (Adjacency_list.degree
            (Adjacency_list.add_edge (Adjacency_list.add_edge ([] : Adjacency_list Nat) 1 2 5) 2 3 1))).sum / 2 :=
  undirected_num_edge_half_degree_sum _
    (Built.edge _ 2 3 1 (Built.edge _ 1 2 5 Built.empty))

/-- C4: on any directed graph (`SortedKeys` is the `std::map` representation
invariant), `num_edge()` equals the sum over all vertices of the size of that
vertex's neighbour set — the sum of all out-degrees, with no halving. -/
theorem directed_num_edge_out_degree_sum (g : Adjacency_list V) (hs : SortedKeys g) :
    Adjacency_list_directed.num_edge g =
      ((Adjacency_list.vertices g).map (Adjacency_list.degree g)).sum := by
  rw [degree_sum_eq_size_sum hs]
  unfold Adjacency_list_directed.num_edge
  rw [foldl_length_eq_sum, Nat.zero_add]

/-- C4 witness: a two-vertex directed graph with one edge each way plus a
self-loop. -/
theorem directed_num_edge_out_degree_sum_witness :
    Adjacency_list_directed.num_edge
        ([(0, [(0, 2), (1, 3)]), (1, [(0, 4)])] : Adjacency_list Nat) =
      ((Adjacency_list.vertices
            ([(0, [(0, 2), (1, 3)]), (1, [(0, 4)])] : Adjacency_list Nat)).map
          (Adjacency_list.degree
            ([(0, [(0, 2), (1, 3)]), (1, [(0, 4)])] : Adjacency_list Nat))).sum :=
  directed_num_edge_out_degree_sum [(0, [(0, 2), (1, 3)]), (1, [(0, 4)])] (by decide)

/-- C5: every query on a missing vertex or edge degrades to a sentinel: if u
was never inserted, `is_vertex(u)` is false, `degree(u)` is 0, and for every
x, `is_edge(u,x)` is false with `weight(u,x)` 0; and for every non-edge
(u,v), `weight(u,v)` is 0.  All operations are total functions. -/
theorem missing_queries_return_sentinels (g : Adjacency_list V) (u v : V) :
    (Adjacency_list.is_vertex g u = false →
      Adjacency_list.degree g u = 0 ∧
      ∀ x : V, Adjacency_list.is_edge g u x = false ∧ Adjacency_list.weight g u x = 0) ∧
    (Adjacency_list.is_edge g u v = false → Adjacency_list.weight g u v = 0) := by
  constructor
  · intro h
    have hm : map_find u g = none := by
      rcases hm : map_find u g with _ | es
      · rfl
      · simp [Adjacency_list.is_vertex, hm] at h
    refine ⟨?_, fun x => ⟨?_, ?_⟩⟩ <;>
      simp [Adjacency_list.degree, Adjacency_list.is_edge, Adjacency_list.weight, hm]
  · intro h
    rcases hm : map_find u g with _ | es
    · simp [Adjacency_list.weight, hm]
    · rcases hv : map_find v es with _ | w
      · simp [Adjacency_list.weight, hm, hv]
      · simp [Adjacency_list.is_edge, hm, hv] at h

/-- C5 witness: the empty graph over Nat, u = 0, v = 1. -/
theorem missing_queries_return_sentinels_witness :
    Adjacency_list.degree ([] : Adjacency_list Nat) 0 = 0 ∧
    Adjacency_list.weight ([] : Adjacency_list Nat) 0 1 = 0 :=
  ⟨((missing_queries_return_sentinels [] 0 1).1 (by decide)).1,
    (missing_queries_return_sentinels [] 0 1).2 (by decide)⟩

/-- C6: each bulk constructor (undirected and directed; weighted list,
unweighted list, iterator range) builds exactly the graph obtained by
starting empty and calling the store's own `add_edge` once per record in
order, with weight 1 for unweighted records (the C++ default argument). -/
theorem constructors_equal_repeated_add_edge {E : Type} (src dst : E → V)
    (get_weight : E → Int) (lw : List (WEdge V)) (lu : List (UEdge V)) (lr : List E) :
    Adjacency_list.ofWEdges lw = fromWEdgesSpec lw ∧
    Adjacency_list.ofUEdges lu = fromUEdgesSpec lu ∧
    Adjacency_list.ofRange src dst get_weight lr = fromRangeSpec src dst get_weight lr ∧
    Adjacency_list_directed.ofWEdges lw = fromWEdgesDirectedSpec lw ∧
    Adjacency_list_directed.ofUEdges lu = fromUEdgesDirectedSpec lu ∧
    Adjacency_list_directed.ofRange src dst get_weight lr =
      fromRangeDirectedSpec src dst get_weight lr :=
  ⟨rfl, rfl, rfl, rfl, rfl, rfl⟩

/-- C7: on any reachable graph, forward vertex iteration yields the vertex
identifiers in strictly increasing order and reverse iteration yields them in
strictly decreasing order; after inserting {3, 1, 2}, forward iteration
yields 1, 2, 3 and reverse yields 3, 2, 1. -/
theorem vertex_iteration_ordered (g : Adjacency_list V) (h : Reachable g) :
    (Adjacency_list.vertices g).Sorted (· < ·) ∧
    ((Adjacency_list.vertices g).reverse).Sorted (· > ·) ∧
    Adjacency_list.vertices example312 = [1, 2, 3] ∧
    (Adjacency_list.vertices example312).reverse = [3, 2, 1] := by
  have hs : SortedKeys g := sortedKeys_of_reachable h
  exact ⟨hs, List.pairwise_reverse.mpr hs, by decide, by decide⟩

/-- C7 witness: the graph with vertices inserted in the order 3, 1, 2. -/
theorem vertex_iteration_ordered_witness :
    (Adjacency_list.vertices example312).Sorted (· < ·) ∧
    ((Adjacency_list.vertices example312).reverse).Sorted (· > ·) ∧
    Adjacency_list.vertices example312 = [1, 2, 3] ∧
    (Adjacency_list.vertices example312).reverse = [3, 2, 1] :=
  vertex_iteration_ordered example312
    (Reachable.vertex _ 2 (Reachable.vertex _ 1 (Reachable.vertex _ 3 Reachable.empty)))

/-- C8: calling `add_vertex(v)` twice in succession leaves the store — hence
`num_vertex()` and `degree(v)` — equal to its state after the first call;
and `add_vertex` on an already-present vertex leaves that vertex's neighbour
set unchanged (`SortedKeys` is the `std::map` representation invariant). -/
theorem add_vertex_idempotent (g : Adjacency_list V) (v : V) :
    Adjacency_list.num_vertex
        (Adjacency_list.add_vertex (Adjacency_list.add_vertex g v) v) =
      Adjacency_list.num_vertex (Adjacency_list.add_vertex g v) ∧
    Adjacency_list.degree (Adjacency_list.add_vertex (Adjacency_list.add_vertex g v) v) v =
      Adjacency_list.degree (Adjacency_list.add_vertex g v) v ∧
    Adjacency_list.add_vertex (Adjacency_list.add_vertex g v) v =
      Adjacency_list.add_vertex g v ∧
    (SortedKeys g → Adjacency_list.is_vertex g v = true →
      map_find v (Adjacency_list.add_vertex g v) = map_find v g) := by
  have heq : Adjacency_list.add_vertex (Adjacency_list.add_vertex g v) v =
      Adjacency_list.add_vertex g v := map_touch_map_touch v [] g
  refine ⟨by rw [heq], by rw [heq], heq, ?_⟩
  intro hs hv
  rcases hm : map_find v g with _ | es
  · simp [Adjacency_list.is_vertex, hm] at hv
  · rw [show Adjacency_list.add_vertex g v = g from map_touch_of_find_some _ hs hm]
    exact hm

/-- C8 witness: the one-vertex graph {0} over Nat. -/
theorem add_vertex_idempotent_witness :
    Adjacency_list.num_vertex
        (Adjacency_list.add_vertex
          (Adjacency_list.add_vertex ([(0, [])] : Adjacency_list Nat) 0) 0) =
      Adjacency_list.num_vertex
        (Adjacency_list.add_vertex ([(0, [])] : Adjacency_list Nat) 0) ∧
    Adjacency_list.degree
        (Adjacency_list.add_vertex
          (Adjacency_list.add_vertex ([(0, [])] : Adjacency_list Nat) 0) 0) 0 =
      Adjacency_list.degree
        (Adjacency_list.add_vertex ([(0, [])] : Adjacency_list Nat) 0) 0 ∧
    Adjacency_list.add_vertex
        (Adjacency_list.add_vertex ([(0, [])] : Adjacency_list Nat) 0) 0 =
      Adjacency_list.add_vertex ([(0, [])] : Adjacency_list Nat) 0 ∧
    map_find 0 (Adjacency_list.add_vertex ([(0, [])] : Adjacency_list Nat) 0) =
      map_find 0 ([(0, [])] : Adjacency_list Nat) := by
  obtain ⟨h1, h2, h3, h4⟩ := add_vertex_idempotent ([(0, [])] : Adjacency_list Nat) 0
  exact ⟨h1, h2, h3, h4 (by decide) (by decide)⟩

/-- C9: `min_vertex()` returns the identifier type's default value on the
empty graph, and on any non-empty graph (with the `std::map` representation
invariant) the smallest vertex identifier. -/
theorem min_vertex_smallest [Inhabited V] (g : Adjacency_list V)
    (hs : SortedKeys g) (hne : g ≠ []) :
    Adjacency_list.min_vertex ([] : Adjacency_list V) = default ∧
    Adjacency_list.min_vertex g ∈ Adjacency_list.vertices g ∧
    ∀ v ∈ Adjacency_list.vertices g, Adjacency_list.min_vertex g ≤ v := by
  rcases g with _ | ⟨p, t⟩
  · exact absurd rfl hne
  · simp only [SortedKeys, List.map_cons, List.pairwise_cons] at hs
    refine ⟨rfl, ?_, ?_⟩
    · simp [Adjacency_list.min_vertex, Adjacency_list.vertices]
    · intro v hv
      rw [Adjacency_list.vertices, List.map_cons, List.mem_cons] at hv
      rcases hv with h | h
      · rw [h]
        exact le_of_eq rfl
      · exact le_of_lt (hs.1 v h)

/-- C9 witness: the two-vertex graph {1, 3} over Nat. -/
theorem min_vertex_smallest_witness :
    Adjacency_list.min_vertex ([] : Adjacency_list Nat) = default ∧
    Adjacency_list.min_vertex ([(1, []), (3, [])] : Adjacency_list Nat) ∈
      Adjacency_list.vertices ([(1, []), (3, [])] : Adjacency_list Nat) ∧
    ∀ v ∈ Adjacency_list.vertices ([(1, []), (3, [])] : Adjacency_list Nat),
      Adjacency_list.min_vertex ([(1, []), (3, [])] : Adjacency_list Nat) ≤ v :=
  min_vertex_smallest [(1, []), (3, [])] (by decide) (by decide)

/-- C10: on the undirected store `add_edge(v, v, w)` stores a single entry
(v,v) ↦ w, so it increases `degree(v)` by at most 1; a graph holding exactly
one self-loop and no other edge has degree sum 1 (odd) and `num_edge()`
reports 0 for it, because the halving is integer division. -/
theorem undirected_self_loop_behaviour (g : Adjacency_list V) (v : V) (w : Int) :
    Adjacency_list.degree (Adjacency_list.add_edge g v v w) v ≤
      Adjacency_list.degree g v + 1 ∧
    map_find v (Adjacency_list.add_edge ([] : Adjacency_list V) v v w) = some [(v, w)] ∧
    Adjacency_list.degree (Adjacency_list.add_edge ([] : Adjacency_list V) v v w) v = 1 ∧
    Adjacency_list.num_edge (Adjacency_list.add_edge ([] : Adjacency_list V) v v w) = 0 := by
  have hdeg : Adjacency_list.degree g v = ((map_find v g).getD []).length := by
    rcases hm : map_find v g with _ | es <;> simp [Adjacency_list.degree, hm]
  have hcompute : Adjacency_list.add_edge ([] : Adjacency_list V) v v w = [(v, [(v, w)])] := by
    unfold Adjacency_list.add_edge Adjacency_list.assign_edge
    simp [map_find, map_insert, lt_irrefl]
  refine ⟨?_, ?_, ?_, ?_⟩
  · show Adjacency_list.degree
        (Adjacency_list.assign_edge (Adjacency_list.assign_edge g v v w) v v w) v ≤
      Adjacency_list.degree g v + 1
    unfold Adjacency_list.assign_edge
    rw [degree_map_insert_self, map_find_insert_self, Option.getD_some,
      map_insert_map_insert, hdeg]
    exact length_map_insert_le v w _
  · rw [hcompute]
    simp [map_find]
  · rw [hcompute]
    simp [Adjacency_list.degree, map_find]
  · rw [hcompute]
    simp [Adjacency_list.num_edge]

end sal
